import Mathlib

/-!
Verification development for the codebase chunking subsystem
(`mcp_doc_generator/core/chunker.py` plus `schemas/chunk.py`).

The embedding works over `List Char` so that every function is executable
and every concrete run can be settled by `decide`.  The token estimator is
an injected capability in the source (`_count_tokens` falls back to
`len(text) // 4` when `tiktoken` is unavailable), so all functions take an
estimator `est : List Char → Nat` as a parameter; `estFallback` is the
documented fallback.  Python iterates hash-based `set` objects in an order
that depends on the per-process string-hash seed; every place the source
iterates a set (the `related` set in the hybrid strategy, `graph.get(node,
[])` in the cluster finder) therefore goes through an explicit
iteration-order parameter `r : List Str → List Str`, which a fixed process
instantiates with one permutation-respecting function.
-/

set_option maxHeartbeats 4000000
set_option maxRecDepth 100000

namespace DocRock

abbrev Str := List Char

/-- The 48-character separator line of the combined-content format. -/
def sepLine : Str := List.replicate 48 '='

/-- ASCII whitespace as recognised by Python's `str.strip()`. -/
def isPySpace (c : Char) : Bool :=
  c = ' ' || c = '\t' || c = '\n' || c = '\r' || c = '\x0b' || c = '\x0c'

/-- Python `s.strip()` (ASCII range). -/
def pyStrip (s : Str) : Str :=
  ((s.dropWhile isPySpace).reverse.dropWhile isPySpace).reverse

/-- `match.group(1).strip().replace("\\", "/")` from `_split_by_files`. -/
def normalizePath (p : Str) : Str :=
  (pyStrip p).map (fun c => if c = '\\' then '/' else c)

/-- Split a string at its first newline (consuming the newline);
`none` when the string has no newline. -/
def splitFirstLine : Str → Option (Str × Str)
  | [] => none
  | c :: cs =>
    if c = '\n' then some ([], cs)
    else
      match splitFirstLine cs with
      | some (l, rest) => some (c :: l, rest)
      | none => none

/-- The regex fragment `([^\n]+)\n`: a nonempty run of non-newline
characters followed by a newline. -/
def takeLine (s : Str) : Option (Str × Str) :=
  match splitFirstLine s with
  | some (l, rest) => if l = [] then none else some (l, rest)
  | none => none

/-- The lazy body group `(.*?)(?=\n{separator}|\Z)`: the shortest prefix
after which the rest starts with `"\n" ++ sepLine`, or everything when no
such position exists. -/
def takeBody : Str → Str × Str
  | [] => ([], [])
  | c :: cs =>
    if ('\n' :: sepLine).isPrefixOf (c :: cs) then ([], c :: cs)
    else
      let (b, rest) := takeBody cs
      (c :: b, rest)

/-- Drop an exact literal from the front of a string, or fail. -/
def dropLit? (lit s : Str) : Option Str :=
  if lit.isPrefixOf s then some (s.drop lit.length) else none

/-- One attempted match of
`{separator}\n(?:FILE|DIRECTORY): ([^\n]+)\n{separator}\n(.*?)(?=\n{separator}|\Z)`
at the current position; returns `(raw path, body, rest after match)`.
The rest keeps the lookahead text, exactly like the regex. -/
def matchBlockAt (s : Str) : Option (Str × Str × Str) :=
  match dropLit? (sepLine ++ ['\n']) s with
  | none => none
  | some s1 =>
    let s2? :=
      match dropLit? "FILE: ".data s1 with
      | some t => some t
      | none => dropLit? "DIRECTORY: ".data s1
    match s2? with
    | none => none
    | some s2 =>
      match takeLine s2 with
      | none => none
      | some (rawPath, s3) =>
        match dropLit? (sepLine ++ ['\n']) s3 with
        | none => none
        | some s4 =>
          let (body, rest) := takeBody s4
          some (rawPath, body, rest)

/-- `re.finditer` scan: try a match at each position, resuming after a
successful match.  A successful match always consumes at least the leading
separator line, so `s.length + 1` fuel always suffices. -/
def scanBlocksF : Nat → Str → List (Str × Str)
  | 0, _ => []
  | _ + 1, [] => []
  | fuel + 1, c :: cs =>
    match matchBlockAt (c :: cs) with
    | some (p, b, rest) => (p, b) :: scanBlocksF fuel rest
    | none => scanBlocksF fuel cs

/-- All `(raw path, body)` matches of the file-block pattern. -/
def scanBlocks (s : Str) : List (Str × Str) :=
  scanBlocksF (s.length + 1) s

/-- Python `dict` assignment `d[k] = v`: replace in place when the key
exists (keeping its position), otherwise append. -/
def dictInsert {κ β : Type} [BEq κ] (d : List (κ × β)) (k : κ) (v : β) :
    List (κ × β) :=
  if d.any (fun e => e.1 == k) then
    d.map (fun e => if e.1 == k then (k, v) else e)
  else d ++ [(k, v)]

/-- Python `d.get(k)` / `d[k]` on an insertion-ordered dict. -/
def lookupAssoc {κ β : Type} [BEq κ] (d : List (κ × β)) (k : κ) : Option β :=
  (d.find? (fun e => e.1 == k)).map Prod.snd

/-- The value stored by `_split_by_files`:
`f"{separator}\nFILE: {path}\n{separator}\n{match.group(2)}"`. -/
def mkBlock (p body : Str) : Str :=
  sepLine ++ '\n' :: "FILE: ".data ++ p ++ '\n' :: sepLine ++ '\n' :: body

/-- `_split_by_files`: the mapping from normalized path to rebuilt block. -/
def splitByFiles (content : Str) : List (Str × Str) :=
  (scanBlocks content).foldl
    (fun d m =>
      let p := normalizePath m.1
      dictInsert d p (mkBlock p m.2))
    []

/-! ### Path handling (`pathlib.PurePath` on POSIX, as used by the source) -/

/-- Split a string on a character; mirrors Python `s.split(c)`. -/
def splitChar (c : Char) : Str → List Str
  | [] => [[]]
  | d :: ds =>
    if d = c then [] :: splitChar c ds
    else
      match splitChar c ds with
      | s :: ss => (d :: s) :: ss
      | [] => [[d]]

/-- Intercalate a separator between pieces. -/
def joinStr (sep : Str) : List Str → Str
  | [] => []
  | [s] => s
  | s :: rest => s ++ sep ++ joinStr sep rest

/-- `PurePosixPath` parsing: optional root (`//` exactly for a double
leading slash, else `/`) and the non-empty, non-`.` segments. -/
def pathParse (p : Str) : Option Str × List Str :=
  let root? : Option Str :=
    if p.take 2 = ['/', '/'] ∧ p.take 3 ≠ ['/', '/', '/'] then some ['/', '/']
    else if p.take 1 = ['/'] then some ['/']
    else none
  (root?, (splitChar '/' p).filter (fun s => !s.isEmpty && s != ['.']))

/-- `str()` of a parsed `PurePosixPath`. -/
def pathStr (root? : Option Str) (segs : List Str) : Str :=
  match root? with
  | some rt => rt ++ joinStr ['/'] segs
  | none => if segs = [] then ['.'] else joinStr ['/'] segs

/-- `str(PurePath(p).parent)`. -/
def parentStr (p : Str) : Str :=
  let (rt, segs) := pathParse p
  pathStr rt segs.dropLast

/-- `PurePath(p).name` (empty for a bare root or empty path). -/
def pathName (p : Str) : Str :=
  ((pathParse p).2.getLast?).getD []

/-- Index of the last `'.'` in a string, if any. -/
def lastDotIdx? (s : Str) : Option Nat :=
  match s.reverse.findIdx? (fun c => c == '.') with
  | some k => some (s.length - 1 - k)
  | none => none

/-- `pathlib` suffix of a file name: the part from the last dot on,
provided the dot is neither first nor last. -/
def nameSuffix (name : Str) : Str :=
  match lastDotIdx? name with
  | some i => if 0 < i ∧ i + 1 < name.length then name.drop i else []
  | none => []

/-- `PurePath(p).suffix`. -/
def pathSuffix (p : Str) : Str :=
  nameSuffix (pathName p)

/-- `with_suffix("")` applied to a file name. -/
def removeSuffixOnce (name : Str) : Str :=
  name.take (name.length - (nameSuffix name).length)

/-- `_path_to_module`: dotted module name of a path.  In Python,
`with_suffix("")` raises `ValueError` on a path with an empty name
(e.g. `""`, `"."` or `"/"`), and `_build_import_graph` calls it on every
recognized path; this embedding is total, so the coverage and
single-block statements whose strategies run the graph builder carry the
`GoodNames` hypothesis excluding exactly those inputs. -/
def pathToModule (p : Str) : Str :=
  let (rt, segs) := pathParse p
  let segs' :=
    match segs.getLast? with
    | some nm => segs.dropLast ++ [removeSuffixOnce nm]
    | none => segs
  let parts := (match rt with | some r => [r] | none => []) ++ segs'
  let parts' := if parts.getLast? = some "__init__".data then parts.dropLast else parts
  joinStr ['.'] parts'

/-- The manual `..`/`.` normalisation loop of `_resolve_js_import`. -/
def normalizeDots (s : Str) : Str :=
  joinStr ['/']
    ((splitChar '/' s).foldl
      (fun acc part =>
        if part = "..".data then acc.dropLast
        else if part = ['.'] then acc
        else acc ++ [part])
      [])

/-- `_resolve_js_import`: join the import onto the importing file's
directory and normalise dot segments. -/
def resolveJsImport (fromPath impPath : Str) : Str :=
  let (r1, s1) := pathParse (parentStr fromPath)
  let (_, s2) := pathParse impPath
  normalizeDots (pathStr r1 (s1 ++ s2))

/-! ### Import detection -/

/-- A `[\w.]`-class character, ASCII range.  Python's `\w` also matches
non-ASCII word characters, so statements that transfer a property of the
model's graph to the program carry the `PlainAscii` hypothesis
restricting the content to the range on which this model is exact. -/
def isWordDot (c : Char) : Bool :=
  c.isAlphanum || c = '_' || c = '.'

/-- One line against `^(?:from|import)\s+([\w.]+)` (MULTILINE anchors the
match at line starts only). -/
def pyImportTarget? (line : Str) : Option Str :=
  let rest? :=
    match dropLit? "from".data line with
    | some t => some t
    | none => dropLit? "import".data line
  match rest? with
  | none => none
  | some rest =>
    let r1 := rest.dropWhile isPySpace
    if r1.length = rest.length then none
    else
      let m := r1.takeWhile isWordDot
      if m = [] then none else some m

/-- All captured dotted-module targets of a Python file's text. -/
def pyTargets (content : Str) : List Str :=
  (splitChar '\n' content).filterMap pyImportTarget?

/-- A quote character for the JS import pattern class `['\"]`. -/
def isQuote (c : Char) : Bool := c = '\'' || c = '"'

/-- One attempted match of `(?:import|require)\s*\(?['\"]([^'\"]+)['\"]`
at the current position; returns `(capture, rest after match)`. -/
def jsMatchAt (s : Str) : Option (Str × Str) :=
  let rest? :=
    match dropLit? "import".data s with
    | some t => some t
    | none => dropLit? "require".data s
  match rest? with
  | none => none
  | some rest =>
    let r1 := rest.dropWhile isPySpace
    let r2 := match r1 with
      | '(' :: t => t
      | _ => r1
    match r2 with
    | [] => none
    | c :: t =>
      if isQuote c then
        let cap := t.takeWhile (fun d => !isQuote d)
        if cap = [] then none
        else
          match t.drop cap.length with
          | d :: rest2 => if isQuote d then some (cap, rest2) else none
          | [] => none
      else none

/-- `re.finditer` scan for the JS/TS import pattern. -/
def jsTargetsF : Nat → Str → List Str
  | 0, _ => []
  | _ + 1, [] => []
  | fuel + 1, c :: cs =>
    match jsMatchAt (c :: cs) with
    | some (cap, rest) => cap :: jsTargetsF fuel rest
    | none => jsTargetsF fuel cs

/-- All captured JS/TS import strings of a file's text. -/
def jsTargets (s : Str) : List Str :=
  jsTargetsF (s.length + 1) s

/-! ### Import graph (`_build_import_graph`) -/

/-- `graph[a].add(b)` on a `defaultdict(set)`: neighbour lists are kept in
insertion order and deduplicated (set semantics); iteration order is
supplied separately by the `r` parameter at each use site. -/
def addEdge (g : List (Str × List Str)) (a b : Str) : List (Str × List Str) :=
  if g.any (fun e => e.1 == a) then
    g.map (fun e => if e.1 == a then (e.1, if b ∈ e.2 then e.2 else e.2 ++ [b]) else e)
  else g ++ [(a, [b])]

/-- Record the edge in both directions, as the source does. -/
def addSym (g : List (Str × List Str)) (a b : Str) : List (Str × List Str) :=
  addEdge (addEdge g a b) b a

def jsExtList : List Str := [".js".data, ".ts".data, ".jsx".data, ".tsx".data]

/-- `_build_import_graph`. -/
def buildImportGraph (blocks : List (Str × Str)) : List (Str × List Str) :=
  let fileModules : List (Str × Str) :=
    blocks.foldl (fun d pb => dictInsert d (pathToModule pb.1) pb.1) []
  blocks.foldl
    (fun g pb =>
      let ext := (pathSuffix pb.1).map Char.toLower
      if ext = ".py".data then
        (pyTargets pb.2).foldl
          (fun g m =>
            match lookupAssoc fileModules m with
            | some tgt => addSym g pb.1 tgt
            | none => g)
          g
      else if ext ∈ jsExtList then
        (jsTargets pb.2).foldl
          (fun g imp =>
            match imp with
            | '.' :: _ =>
              let resolved := resolveJsImport pb.1 imp
              match (blocks.map Prod.fst).find?
                  (fun fp => resolved.isSuffixOf fp ||
                    (resolved ++ ".ts".data).isSuffixOf fp ||
                    (resolved ++ ".js".data).isSuffixOf fp) with
              | some fp => addSym g pb.1 fp
              | none => g
            | _ => g)
          g
      else g)
    []

/-- `graph.get(node, [])` (membership view; iteration goes through `r`). -/
def graphNeighbors (g : List (Str × List Str)) (node : Str) : List Str :=
  (lookupAssoc g node).getD []

/-! ### Cluster finder (`_find_clusters`) -/

/-- The inner work-list loop of `_find_clusters`.  The Python stack pops
from the end (`stack.pop()`) and appends pushes at the end; `r` supplies
the set-iteration order of `graph.get(node, [])`.  Structured on fuel: a
pop consumes a stack entry, and pushes happen only on the first visit of a
node, so across one call the number of iterations is bounded by the
initial stack size plus the total size of all neighbour lists; the fuel
chosen in `findClusters` is comfortably above that bound. -/
def dfsF (r : List Str → List Str) (g : List (Str × List Str)) :
    Nat → List Str → List Str → List Str → List Str × List Str
  | 0, _, vis, cl => (cl, vis)
  | fuel + 1, stk, vis, cl =>
    match stk.getLast? with
    | none => (cl, vis)
    | some node =>
      let stk' := stk.dropLast
      if node ∈ vis then dfsF r g fuel stk' vis cl
      else
        let vis' := vis ++ [node]
        let pushes := (r (graphNeighbors g node)).filter (fun n => !vis'.contains n)
        dfsF r g fuel (stk' ++ pushes) vis' (cl ++ [node])

/-- One outer-loop iteration of `_find_clusters`: skip a visited key,
otherwise run the DFS from it and append the nonempty cluster. -/
def clusterStep (r : List Str → List Str) (g : List (Str × List Str))
    (fuel : Nat) (acc : List (List Str) × List Str) (start : Str) :
    List (List Str) × List Str :=
  if start ∈ acc.2 then acc
  else
    let res := dfsF r g fuel [start] acc.2 []
    ((if res.1 ≠ [] then acc.1 ++ [res.1] else acc.1), res.2)

/-- `_find_clusters`: one DFS per still-unvisited key, in dict order. -/
def findClusters (r : List Str → List Str) (g : List (Str × List Str))
    (blocks : List (Str × Str)) : List (List Str) :=
  let keys := blocks.map Prod.fst
  let fuel := (g.map (fun e => e.2.length)).sum + keys.length + 2
  (keys.foldl (clusterStep r g fuel) ([], [])).1

/-! ### Sorting (Python's stable `sort(..., reverse=True)`) -/

/-- Insert before the first element of smaller-or-equal key: together with
`sortDesc` this reproduces Python's stable descending sort. -/
def insertDesc {α : Type} (key : α → Int) (x : α) : List α → List α
  | [] => [x]
  | y :: ys => if key x ≥ key y then x :: y :: ys else y :: insertDesc key x ys

/-- Stable descending sort by an integer key. -/
def sortDesc {α : Type} (key : α → Int) : List α → List α
  | [] => []
  | x :: xs => insertDesc key x (sortDesc key xs)

/-! ### Data model (`schemas/chunk.py`) -/

structure CodeChunk where
  chunk_id : Nat
  files : List Str
  content : Str
  token_count : Nat
  overlap_with_previous : Nat
  importance_score : Int
deriving DecidableEq

/-- An empty freshly-created chunk with the given id. -/
def freshChunk (id : Nat) : CodeChunk :=
  ⟨id, [], [], 0, 0, 0⟩

/-- One record of the per-file metadata list: `path` and `importance` keys
may each be absent. -/
structure FileMeta where
  path : Option Str
  importance : Option Int
deriving DecidableEq

inductive ChunkStrategy
  | file | directory | semantic | hybrid
deriving DecidableEq

structure ChunkResult where
  strategy : ChunkStrategy
  chunks : List CodeChunk
  total_chunks : Nat
  total_tokens : Nat
  token_distribution : List (Nat × Nat)
  max_tokens_per_chunk : Nat
  overlap_tokens : Nat
deriving DecidableEq

/-- The documented fallback of `_count_tokens`: `len(text) // 4`. -/
def estFallback (t : Str) : Nat := t.length / 4

/-- `_dir_importance`. -/
def dirImportance (dirPath : Str) : Int :=
  let tbl : List (Str × Int) :=
    [("src".data, 100), ("lib".data, 90), ("core".data, 85), ("api".data, 80),
     ("models".data, 75), ("services".data, 75), ("utils".data, 60),
     ("tests".data, 50), ("__tests__".data, 50), ("test".data, 50)]
  ((lookupAssoc tbl (pathName dirPath)).getD 50)

/-- `_file_importance`: first metadata record whose `path` equals the
file's path wins; otherwise a static table keyed on the file name. -/
def fileImportance (path : Str) (metas : List FileMeta) : Int :=
  match metas.find? (fun f => f.path == some path) with
  | some f => f.importance.getD 50
  | none =>
    let name := pathName path
    if (["main.py", "__main__.py", "app.py", "index.ts", "server.py"].map
        String.data).contains name then 100
    else if (["pyproject.toml", "package.json"].map String.data).contains name then 90
    else 50

/-- Python `max` of a nonempty list (callers guard nonemptiness). -/
def listMaxInt : List Int → Int
  | [] => 0
  | x :: xs => xs.foldl max x

/-! ### Strategy: file (`_chunk_by_file`)

The `I`-suffixed variants carry a ghost unit counter per chunk (the number
of units — files, directory groups / fallback files, clusters — packed
into it); the real strategy output is their first projection. -/

def chunkByFileStep (est : Str → Nat) (maxTokens : Nat)
    (st : List (CodeChunk × Nat) × CodeChunk × Nat) (pb : Str × Str) :
    List (CodeChunk × Nat) × CodeChunk × Nat :=
  let sealed := st.1
  let cur := st.2.1
  let units := st.2.2
  let tokens := est pb.2
  if cur.token_count + tokens > maxTokens then
    let sealed' := if cur.files ≠ [] then sealed ++ [(cur, units)] else sealed
    (sealed', ⟨sealed'.length, [pb.1], pb.2, tokens, 0, 0⟩, 1)
  else
    (sealed,
     { cur with files := cur.files ++ [pb.1], content := cur.content ++ pb.2,
                token_count := cur.token_count + tokens },
     units + 1)

def chunkByFileI (est : Str → Nat) (maxTokens : Nat) (content : Str) :
    List (CodeChunk × Nat) :=
  let blocks := splitByFiles content
  let res := blocks.foldl (chunkByFileStep est maxTokens) ([], freshChunk 0, 0)
  if res.2.1.files ≠ [] then res.1 ++ [(res.2.1, res.2.2)] else res.1

def chunkByFile (est : Str → Nat) (maxTokens : Nat) (content : Str) :
    List CodeChunk :=
  (chunkByFileI est maxTokens content).map Prod.fst

/-! ### Strategy: directory (`_chunk_by_directory`) -/

/-- `defaultdict(list)` append: extend the bucket in place, or create it. -/
def groupInsert (d : List (Str × List (Str × Str))) (k : Str) (v : Str × Str) :
    List (Str × List (Str × Str)) :=
  if d.any (fun e => e.1 == k) then
    d.map (fun e => if e.1 == k then (e.1, e.2 ++ [v]) else e)
  else d ++ [(k, [v])]

/-- The per-file fallback step used when a whole directory exceeds the
budget. -/
def dirFileStep (est : Str → Nat) (maxTokens : Nat)
    (st : List (CodeChunk × Nat) × CodeChunk × Nat) (pb : Str × Str) :
    List (CodeChunk × Nat) × CodeChunk × Nat :=
  let sealed := st.1
  let cur := st.2.1
  let units := st.2.2
  let ftokens := est pb.2
  let st1 :=
    if cur.token_count + ftokens > maxTokens then
      ((if cur.files ≠ [] then sealed ++ [(cur, units)] else sealed),
       freshChunk (if cur.files ≠ [] then sealed ++ [(cur, units)] else sealed).length, 0)
    else (sealed, cur, units)
  (st1.1,
   { st1.2.1 with files := st1.2.1.files ++ [pb.1],
                  content := st1.2.1.content ++ pb.2,
                  token_count := st1.2.1.token_count + ftokens },
   st1.2.2 + 1)

def chunkByDirStep (est : Str → Nat) (maxTokens : Nat)
    (dirFiles : List (Str × List (Str × Str)))
    (st : List (CodeChunk × Nat) × CodeChunk × Nat) (dirPath : Str) :
    List (CodeChunk × Nat) × CodeChunk × Nat :=
  let sealed := st.1
  let cur := st.2.1
  let units := st.2.2
  let entries := (lookupAssoc dirFiles dirPath).getD []
  let dirContent := entries.foldl (fun acc pb => acc ++ pb.2) []
  let dirPaths := entries.map Prod.fst
  let tokens := est dirContent
  if tokens > maxTokens then
    entries.foldl (dirFileStep est maxTokens) st
  else if cur.token_count + tokens > maxTokens then
    let sealed' := if cur.files ≠ [] then sealed ++ [(cur, units)] else sealed
    (sealed', ⟨sealed'.length, dirPaths, dirContent, tokens, 0, 0⟩, 1)
  else
    (sealed,
     { cur with files := cur.files ++ dirPaths, content := cur.content ++ dirContent,
                token_count := cur.token_count + tokens },
     units + 1)

def chunkByDirectoryI (est : Str → Nat) (maxTokens : Nat) (content : Str) :
    List (CodeChunk × Nat) :=
  let blocks := splitByFiles content
  let dirFiles := blocks.foldl (fun d pb => groupInsert d (parentStr pb.1) pb) []
  let sortedDirs := sortDesc dirImportance (dirFiles.map Prod.fst)
  let res := sortedDirs.foldl (chunkByDirStep est maxTokens dirFiles)
    ([], freshChunk 0, 0)
  if res.2.1.files ≠ [] then res.1 ++ [(res.2.1, res.2.2)] else res.1

def chunkByDirectory (est : Str → Nat) (maxTokens : Nat) (content : Str) :
    List CodeChunk :=
  (chunkByDirectoryI est maxTokens content).map Prod.fst

/-! ### Strategy: semantic (`_chunk_semantic`) -/

def clusterContent (blocks : List (Str × Str)) (cluster : List Str) : Str :=
  cluster.foldl
    (fun acc p =>
      match lookupAssoc blocks p with
      | some fc => acc ++ fc
      | none => acc)
    []

def chunkSemanticStep (est : Str → Nat) (maxTokens : Nat)
    (blocks : List (Str × Str))
    (st : List (CodeChunk × Nat) × CodeChunk × Nat) (cluster : List Str) :
    List (CodeChunk × Nat) × CodeChunk × Nat :=
  let sealed := st.1
  let cur := st.2.1
  let units := st.2.2
  let cc := clusterContent blocks cluster
  let tokens := est cc
  let st1 :=
    if cur.token_count + tokens > maxTokens then
      ((if cur.files ≠ [] then sealed ++ [(cur, units)] else sealed),
       freshChunk (if cur.files ≠ [] then sealed ++ [(cur, units)] else sealed).length, 0)
    else (sealed, cur, units)
  (st1.1,
   { st1.2.1 with files := st1.2.1.files ++ cluster,
                  content := st1.2.1.content ++ cc,
                  token_count := st1.2.1.token_count + tokens },
   st1.2.2 + 1)

def chunkSemanticI (est : Str → Nat) (r : List Str → List Str)
    (maxTokens : Nat) (content : Str) : List (CodeChunk × Nat) :=
  let blocks := splitByFiles content
  let graph := buildImportGraph blocks
  let clusters := findClusters r graph blocks
  let res := clusters.foldl (chunkSemanticStep est maxTokens blocks)
    ([], freshChunk 0, 0)
  if res.2.1.files ≠ [] then res.1 ++ [(res.2.1, res.2.2)] else res.1

def chunkSemantic (est : Str → Nat) (r : List Str → List Str)
    (maxTokens : Nat) (content : Str) : List CodeChunk :=
  (chunkSemanticI est r maxTokens content).map Prod.fst

/-! ### Strategy: hybrid (`_chunk_hybrid`) and overlap (`_add_overlap`) -/

/-- Record the chunk's importance score (maximum member importance) just
before it is sealed, as the source does. -/
def sealWithImportance (metas : List FileMeta) (c : CodeChunk) : CodeChunk :=
  { c with importance_score := listMaxInt (c.files.map (fun f => fileImportance f metas)) }

/-- `group = [path] + [r for r in related if r not in processed and r in
file_blocks]` from `_chunk_hybrid`; `r` supplies the set-iteration order
of the `related` set. -/
def hybridGroup (r : List Str → List Str) (graph : List (Str × List Str))
    (blocks : List (Str × Str)) (processed : List Str) (p : Str) : List Str :=
  p :: (r (graphNeighbors graph p)).filter
    (fun q => !processed.contains q && (lookupAssoc blocks q).isSome)

def chunkHybridStep (est : Str → Nat) (r : List Str → List Str)
    (maxTokens : Nat) (metas : List FileMeta)
    (blocks : List (Str × Str)) (graph : List (Str × List Str))
    (st : List CodeChunk × CodeChunk × List Str) (x : Str × Int × Str) :
    List CodeChunk × CodeChunk × List Str :=
  let sealed := st.1
  let cur := st.2.1
  let processed := st.2.2
  if x.1 ∈ processed then st
  else
    let group := hybridGroup r graph blocks processed x.1
    let gp := group.foldl
      (fun (acc : Str × List Str) q =>
        match lookupAssoc blocks q with
        | some fc => (acc.1 ++ fc, if q ∈ acc.2 then acc.2 else acc.2 ++ [q])
        | none => acc)
      ([], processed)
    let tokens := est gp.1
    let st1 :=
      if cur.token_count + tokens > maxTokens then
        let sealed' := if cur.files ≠ [] then sealed ++ [sealWithImportance metas cur] else sealed
        (sealed', freshChunk sealed'.length)
      else (sealed, cur)
    (st1.1,
     { st1.2 with files := st1.2.files ++ group, content := st1.2.content ++ gp.1,
                  token_count := st1.2.token_count + tokens },
     gp.2)

/-- The hybrid packing pass, before overlap injection. -/
def chunkHybridPack (est : Str → Nat) (r : List Str → List Str)
    (maxTokens : Nat) (content : Str) (metas : List FileMeta) : List CodeChunk :=
  let blocks := splitByFiles content
  let scored := blocks.map (fun pb => (pb.1, fileImportance pb.1 metas, pb.2))
  let sortedScored := sortDesc (fun x => x.2.1) scored
  let graph := buildImportGraph blocks
  let res := sortedScored.foldl
    (chunkHybridStep est r maxTokens metas blocks graph)
    ([], freshChunk 0, [])
  if res.2.1.files ≠ [] then res.1 ++ [sealWithImportance metas res.2.1] else res.1

def ctxTag : Str := "[Context from previous chunk]\n".data

/-- The `_add_overlap` loop body for one chunk after the first: when the
previous chunk's content is longer than `overlap * 4` characters, prepend
its trailing `overlap * 4` characters (with the demarcation header), mark
the overlap and add the configured overlap to the token count; otherwise
leave the chunk untouched. -/
def overlayChunk (ov : Nat) (prev c : CodeChunk) : CodeChunk :=
  if prev.content.length > ov * 4 then
    { c with content := ctxTag ++ prev.content.drop (prev.content.length - ov * 4) ++
               '\n' :: '\n' :: c.content,
             overlap_with_previous := ov,
             token_count := c.token_count + ov }
  else c

/-- `_add_overlap` body for chunks after the first; `prev` is the
already-updated previous chunk, exactly as the in-place Python loop reads
it. -/
def addOverlapGo (ov : Nat) (prev : CodeChunk) : List CodeChunk → List CodeChunk
  | [] => []
  | c :: rest => overlayChunk ov prev c :: addOverlapGo ov (overlayChunk ov prev c) rest

/-- `_add_overlap`. -/
def addOverlap (ov : Nat) : List CodeChunk → List CodeChunk
  | [] => []
  | c :: rest => c :: addOverlapGo ov c rest

/-- `_chunk_hybrid`: pack, then inject overlap when configured and more
than one chunk exists. -/
def chunkHybrid (est : Str → Nat) (r : List Str → List Str)
    (maxTokens overlapTokens : Nat) (content : Str) (metas : List FileMeta) :
    List CodeChunk :=
  let packed := chunkHybridPack est r maxTokens content metas
  if overlapTokens > 0 ∧ packed.length > 1 then addOverlap overlapTokens packed
  else packed

/-! ### Entry point (`CodeChunker.chunk`) -/

/-- `{c.chunk_id: c.token_count for c in chunks}`. -/
def tokenDist (chunks : List CodeChunk) : List (Nat × Nat) :=
  chunks.foldl (fun d c => dictInsert d c.chunk_id c.token_count) []

def chunk (est : Str → Nat) (r : List Str → List Str)
    (maxTokens overlapTokens : Nat) (content : Str) (metas : List FileMeta)
    (strategy : ChunkStrategy) : ChunkResult :=
  let cs :=
    match strategy with
    | .file => chunkByFile est maxTokens content
    | .directory => chunkByDirectory est maxTokens content
    | .semantic => chunkSemantic est r maxTokens content
    | .hybrid => chunkHybrid est r maxTokens overlapTokens content metas
  let dist := tokenDist cs
  { strategy := strategy
    chunks := cs
    total_chunks := cs.length
    total_tokens := (dist.map Prod.snd).sum
    token_distribution := dist
    max_tokens_per_chunk := maxTokens
    overlap_tokens := overlapTokens }

/-! ### Derived notions used by the claims -/

/-- The import graph records no file as related to itself. -/
def NoSelfLoop (g : List (Str × List Str)) : Prop :=
  ∀ e ∈ g, e.1 ∉ e.2

/-- A set-iteration order parameter is admissible when it only reorders. -/
def ValidOrder (r : List Str → List Str) : Prop :=
  ∀ l : List Str, (r l).Perm l

/-- Every recognized path has a nonempty `pathlib` name, the condition
under which Python's `_path_to_module` does not raise. -/
def GoodNames (blocks : List (Str × Str)) : Prop :=
  ∀ pb ∈ blocks, pathName pb.1 ≠ []

/-- The adjacency relation is symmetric. -/
def SymmGraph (g : List (Str × List Str)) : Prop :=
  ∀ a b : Str, b ∈ graphNeighbors g a → a ∈ graphNeighbors g b

/-- The adjacency relation only mentions the given paths (it is a
relation "over its paths", as the spec puts it). -/
def GraphOver (keys : List Str) (g : List (Str × List Str)) : Prop :=
  ∀ e ∈ g, e.1 ∈ keys ∧ ∀ x ∈ e.2, x ∈ keys

/-- Tab, newline and printable ASCII only.  On such text the ASCII-range
models of the regex classes `\w` and `\s`, of `str.strip()` and of
`str.lower()` coincide with Python's Unicode-aware behaviour, so the
model's splitter keys and import graph are the program's. -/
def PlainAscii (t : Str) : Prop :=
  ∀ c ∈ t, c = '\t' ∨ c = '\n' ∨ (32 ≤ c.toNat ∧ c.toNat ≤ 126)

instance decGoodNames (bs : List (Str × Str)) : Decidable (GoodNames bs) :=
  inferInstanceAs (Decidable (∀ pb ∈ bs, pathName pb.1 ≠ []))

instance decPlainAscii (t : Str) : Decidable (PlainAscii t) :=
  inferInstanceAs
    (Decidable (∀ c ∈ t, c = '\t' ∨ c = '\n' ∨ (32 ≤ c.toNat ∧ c.toNat ≤ 126)))

instance decNoSelfLoop (g : List (Str × List Str)) : Decidable (NoSelfLoop g) :=
  inferInstanceAs (Decidable (∀ e ∈ g, e.1 ∉ e.2))

/-! ### Concrete inputs for counterexamples and witnesses -/

/-- Two unrelated small Python files. -/
def exTwo : Str :=
  mkBlock "a.py".data "x = 1\n".data ++ mkBlock "b.py".data "y = 2\n".data

/-- `c.py` imports both `a` and `b`; `a.py` and `b.py` are leaves. -/
def exTriple : Str :=
  mkBlock "c.py".data "import a\nimport b\n".data ++
  mkBlock "a.py".data "x = 1\n".data ++
  mkBlock "b.py".data "y = 2\n".data

/-- A single block that uses the `DIRECTORY:` header form. -/
def exDir : Str :=
  sepLine ++ '\n' :: "DIRECTORY: pkg".data ++ '\n' :: sepLine ++ '\n' :: "stuff\n".data

/-- Two blocks whose headers normalize to the same path. -/
def exDup : Str :=
  mkBlock "a.py".data "first\n".data ++ mkBlock "a.py".data "second\n".data

/-- Executable substring test (used to refute "appears verbatim in the
content" statements). -/
def isSubtext (v c : Str) : Bool :=
  (List.range (c.length + 1)).any (fun i => v.isPrefixOf (c.drop i))

/-- Number of entries of an association list holding a given key. -/
def countKey {β : Type} (d : List (Str × β)) (p : Str) : Nat :=
  (d.filter (fun e => e.1 == p)).length

/-- The generic shape of the `blocks[key] = value` accumulation loops
(the splitter and the module table are both instances). -/
def dfold {κ β α : Type} [BEq κ] (fk : α → κ) (fv : α → β)
    (ms : List α) (d : List (κ × β)) : List (κ × β) :=
  ms.foldl (fun d m => dictInsert d (fk m) (fv m)) d

/-! ## Association-list (Python dict) lemmas -/

section Dict

set_option linter.unusedSectionVars false

variable {κ β : Type} [BEq κ] [LawfulBEq κ]

theorem any_key_iff (d : List (κ × β)) (k : κ) :
    d.any (fun e => e.1 == k) = true ↔ k ∈ d.map Prod.fst := by
  rw [List.any_eq_true]
  constructor
  · rintro ⟨e, he, hk⟩
    exact List.mem_map.mpr ⟨e, he, beq_iff_eq.mp hk⟩
  · intro h
    rcases List.mem_map.mp h with ⟨e, he, rfl⟩
    exact ⟨e, he, beq_iff_eq.mpr rfl⟩

theorem mem_dictInsert_elim {d : List (κ × β)} {k : κ} {v : β} {e : κ × β}
    (h : e ∈ dictInsert d k v) : e ∈ d ∨ e = (k, v) := by
  unfold dictInsert at h
  split at h
  · rcases List.mem_map.mp h with ⟨e0, he0, heq⟩
    by_cases hk : (e0.1 == k) = true
    · right; rw [if_pos hk] at heq; exact heq.symm
    · left; rw [if_neg hk] at heq; exact heq ▸ he0
  · rcases List.mem_append.mp h with h | h
    · exact Or.inl h
    · right; simpa using h

theorem keys_dictInsert_of_mem {d : List (κ × β)} {k : κ} (v : β)
    (h : k ∈ d.map Prod.fst) :
    (dictInsert d k v).map Prod.fst = d.map Prod.fst := by
  unfold dictInsert
  rw [if_pos ((any_key_iff d k).mpr h), List.map_map]
  apply List.map_congr_left
  intro e _
  by_cases hk : (e.1 == k) = true
  · simp [hk, (beq_iff_eq.mp hk).symm]
  · simp [hk]

theorem keys_dictInsert_of_not_mem {d : List (κ × β)} {k : κ} (v : β)
    (h : k ∉ d.map Prod.fst) :
    (dictInsert d k v).map Prod.fst = d.map Prod.fst ++ [k] := by
  unfold dictInsert
  rw [if_neg]
  · simp
  · intro hc
    exact h ((any_key_iff d k).mp hc)

theorem keys_nodup_dictInsert {d : List (κ × β)} {k : κ} (v : β)
    (h : (d.map Prod.fst).Nodup) : ((dictInsert d k v).map Prod.fst).Nodup := by
  by_cases hm : k ∈ d.map Prod.fst
  · rw [keys_dictInsert_of_mem v hm]; exact h
  · rw [keys_dictInsert_of_not_mem v hm]
    exact List.nodup_append.mpr ⟨h, List.nodup_singleton k, by
      intro a ha hb
      simp at hb
      exact hm (hb ▸ ha)⟩

theorem mem_keys_dictInsert {d : List (κ × β)} {k k' : κ} (v : β) :
    k' ∈ (dictInsert d k v).map Prod.fst ↔ k' ∈ d.map Prod.fst ∨ k' = k := by
  by_cases hm : k ∈ d.map Prod.fst
  · rw [keys_dictInsert_of_mem v hm]
    constructor
    · exact Or.inl
    · rintro (h | rfl)
      · exact h
      · exact hm
  · rw [keys_dictInsert_of_not_mem v hm]
    simp

theorem find?_map_replace {k : κ} {v : β} (d : List (κ × β))
    (h : d.any (fun e => e.1 == k) = true) :
    (d.map (fun e => if e.1 == k then (k, v) else e)).find? (fun e => e.1 == k) =
      some (k, v) := by
  induction d with
  | nil => simp at h
  | cons e rest ih =>
    by_cases hk : (e.1 == k) = true
    · rw [List.map_cons, if_pos hk]
      simp only [List.find?_cons, beq_self_eq_true]
    · have h' : rest.any (fun e => e.1 == k) = true := by
        rcases List.any_eq_true.mp h with ⟨x, hx, hxx⟩
        rcases List.mem_cons.mp hx with rfl | hx'
        · exact absurd hxx hk
        · exact List.any_eq_true.mpr ⟨x, hx', hxx⟩
      have hkf : (e.1 == k) = false := by simpa using hk
      rw [List.map_cons, if_neg hk]
      simp only [List.find?_cons, hkf]
      exact ih h'

theorem find?_map_replace_ne {k k' : κ} {v : β} (d : List (κ × β)) (h : k' ≠ k) :
    (d.map (fun e => if e.1 == k then (k, v) else e)).find? (fun e => e.1 == k') =
      d.find? (fun e => e.1 == k') := by
  induction d with
  | nil => rfl
  | cons e rest ih =>
    by_cases hk : (e.1 == k) = true
    · have he1 : e.1 = k := beq_iff_eq.mp hk
      have hne : ((k : κ) == k') = false := beq_eq_false_iff_ne.mpr (Ne.symm h)
      have hne' : (e.1 == k') = false := by rw [he1]; exact hne
      rw [List.map_cons, if_pos hk]
      simp only [List.find?_cons, hne, hne']
      exact ih
    · rw [List.map_cons, if_neg hk]
      cases hk' : (e.1 == k') with
      | true => simp only [List.find?_cons, hk']
      | false =>
        simp only [List.find?_cons, hk']
        exact ih

theorem lookupAssoc_dictInsert_self (d : List (κ × β)) (k : κ) (v : β) :
    lookupAssoc (dictInsert d k v) k = some v := by
  unfold dictInsert lookupAssoc
  split
  · rw [find?_map_replace d (by assumption)]
    rfl
  · rename_i hany
    have hnone : d.find? (fun e => e.1 == k) = none := by
      rw [List.find?_eq_none]
      intro e he
      intro hc
      exact hany (List.any_eq_true.mpr ⟨e, he, hc⟩)
    rw [List.find?_append, hnone]
    simp [List.find?]

theorem lookupAssoc_dictInsert_ne (d : List (κ × β)) (k k' : κ) (v : β)
    (h : k' ≠ k) :
    lookupAssoc (dictInsert d k v) k' = lookupAssoc d k' := by
  unfold dictInsert lookupAssoc
  have hne : ((k : κ) == k') = false := beq_eq_false_iff_ne.mpr (Ne.symm h)
  split
  · rw [find?_map_replace_ne d h]
  · rw [List.find?_append]
    cases hfind : d.find? (fun e => e.1 == k') with
    | some e => simp [hfind]
    | none => simp [hfind, List.find?, hne]

end Dict

/-! ## The dict-building fold shared by the splitter and the module table -/

section DictFold

set_option linter.unusedSectionVars false

variable {κ β α : Type} [BEq κ] [LawfulBEq κ] (fk : α → κ) (fv : α → β)

theorem mem_dfold_elim {ms : List α} {d : List (κ × β)} {e : κ × β}
    (h : e ∈ dfold fk fv ms d) : e ∈ d ∨ ∃ m ∈ ms, e = (fk m, fv m) := by
  induction ms generalizing d with
  | nil => exact Or.inl h
  | cons m rest ih =>
    rcases ih (d := dictInsert d (fk m) (fv m)) h with h' | ⟨m', hm', rfl⟩
    · rcases mem_dictInsert_elim h' with h'' | h''
      · exact Or.inl h''
      · exact Or.inr ⟨m, List.mem_cons_self m rest, h''⟩
    · exact Or.inr ⟨m', List.mem_cons_of_mem m hm', rfl⟩

theorem lookupAssoc_dfold (ms : List α) (d : List (κ × β)) (p : κ) :
    lookupAssoc (dfold fk fv ms d) p =
      (((ms.filter (fun m => fk m == p)).getLast?).map fv).or (lookupAssoc d p) := by
  induction ms generalizing d with
  | nil => simp [dfold]
  | cons m rest ih =>
    rw [show dfold fk fv (m :: rest) d = dfold fk fv rest (dictInsert d (fk m) (fv m)) from rfl,
      ih, List.filter_cons]
    by_cases hk : (fk m == p) = true
    · have hkp : fk m = p := beq_iff_eq.mp hk
      rw [if_pos hk]
      cases hlast : (rest.filter (fun m => fk m == p)).getLast? with
      | some m' =>
        have : (m :: rest.filter (fun m => fk m == p)).getLast? = some m' := by
          cases hfe : rest.filter (fun m => fk m == p) with
          | nil => rw [hfe] at hlast; simp at hlast
          | cons a as =>
            rw [List.getLast?_cons_cons]
            rw [hfe] at hlast
            exact hlast
        rw [this]
        simp [Option.or_some]
      | none =>
        have hempty : rest.filter (fun m => fk m == p) = [] := by
          cases hfe : rest.filter (fun m => fk m == p) with
          | nil => rfl
          | cons a as => rw [hfe] at hlast; simp [List.getLast?_cons] at hlast
        rw [hempty, List.getLast?_singleton]
        have hself := lookupAssoc_dictInsert_self d (fk m) (fv m)
        rw [hkp] at hself
        simp only [hempty, List.getLast?, Option.map_none, Option.none_or,
          Option.map_some, hkp]
        rw [hself]
        rfl
    · rw [if_neg hk]
      have hne : p ≠ fk m := fun hc => absurd (beq_iff_eq.mpr hc.symm) (by simpa using hk)
      rw [lookupAssoc_dictInsert_ne d (fk m) p (fv m) hne]

theorem keys_nodup_dfold (ms : List α) (d : List (κ × β))
    (h : (d.map Prod.fst).Nodup) : ((dfold fk fv ms d).map Prod.fst).Nodup := by
  induction ms generalizing d with
  | nil => exact h
  | cons m rest ih => exact ih _ (keys_nodup_dictInsert (fv m) h)

theorem mem_keys_dfold (ms : List α) (d : List (κ × β)) (p : κ) :
    p ∈ (dfold fk fv ms d).map Prod.fst ↔
      p ∈ d.map Prod.fst ∨ ∃ m ∈ ms, fk m = p := by
  induction ms generalizing d with
  | nil => simp [dfold]
  | cons m rest ih =>
    rw [show dfold fk fv (m :: rest) d = dfold fk fv rest (dictInsert d (fk m) (fv m)) from rfl,
      ih, mem_keys_dictInsert]
    constructor
    · rintro ((h | h) | ⟨m', hm', rfl⟩)
      · exact Or.inl h
      · exact Or.inr ⟨m, List.mem_cons_self m rest, h.symm⟩
      · exact Or.inr ⟨m', List.mem_cons_of_mem m hm', rfl⟩
    · rintro (h | ⟨m', hm', rfl⟩)
      · exact Or.inl (Or.inl h)
      · rcases List.mem_cons.mp hm' with rfl | hm''
        · exact Or.inl (Or.inr rfl)
        · exact Or.inr ⟨m', hm'', rfl⟩

end DictFold

/-- `splitByFiles` is the dict fold over the scanner output. -/
theorem splitByFiles_eq_dfold (c : Str) :
    splitByFiles c =
      dfold (fun m => normalizePath m.1) (fun m => mkBlock (normalizePath m.1) m.2)
        (scanBlocks c) [] := rfl

theorem splitByFiles_keys_nodup (c : Str) :
    ((splitByFiles c).map Prod.fst).Nodup := by
  rw [splitByFiles_eq_dfold]
  exact keys_nodup_dfold _ _ _ _ List.nodup_nil

theorem mem_splitByFiles_elim {c : Str} {e : Str × Str}
    (h : e ∈ splitByFiles c) :
    ∃ m ∈ scanBlocks c, e = (normalizePath m.1, mkBlock (normalizePath m.1) m.2) := by
  rw [splitByFiles_eq_dfold] at h
  rcases mem_dfold_elim _ _ h with h' | h'
  · simp at h'
  · exact h'

/-! ## Claim C8 — splitter block values -/

/-- C8 (counterexample): for a block declared with a `DIRECTORY:` header,
the stored value rewrites the header to `FILE:` with the normalized path,
so it is not the textual representation of the file as it appears in the
combined content (it is not even a substring of the content). -/
theorem C8_counterexample :
    splitByFiles exDir = [("pkg".data, mkBlock "pkg".data "stuff\n".data)] ∧
    isSubtext (mkBlock "pkg".data "stuff\n".data) exDir = false := by
  decide

/-- C8 (amended): every value of the splitter's mapping is the canonical
wrapping — separator line, `FILE: <normalized path>` header (regardless of
the original header kind and spelling), separator line, then the raw body
captured by the delimiter scan at some occurrence whose header path
normalizes to the entry's key. -/
theorem C8_amended {c p v : Str} (h : (p, v) ∈ splitByFiles c) :
    ∃ raw body, (raw, body) ∈ scanBlocks c ∧ p = normalizePath raw ∧
      v = mkBlock p body := by
  rcases mem_splitByFiles_elim h with ⟨m, hm, he⟩
  refine ⟨m.1, m.2, hm, ?_, ?_⟩
  · exact congrArg Prod.fst he
  · have h2 := congrArg Prod.snd he
    simp only at h2
    rw [h2]
    rw [show p = normalizePath m.1 from congrArg Prod.fst he]

/-- C8 witness: instantiation of `C8_amended` at the concrete
`DIRECTORY:`-headed input. -/
theorem C8_witness :
    (("pkg".data, mkBlock "pkg".data "stuff\n".data) ∈ splitByFiles exDir) ∧
    ∃ raw body, (raw, body) ∈ scanBlocks exDir ∧
      "pkg".data = normalizePath raw ∧
      mkBlock "pkg".data "stuff\n".data = mkBlock "pkg".data body :=
  ⟨by decide, C8_amended (by decide)⟩

theorem countKey_eq_one_of_nodup {β : Type} (d : List (Str × β)) (p : Str)
    (hnd : (d.map Prod.fst).Nodup) (hmem : p ∈ d.map Prod.fst) :
    countKey d p = 1 := by
  induction d with
  | nil => simp at hmem
  | cons e rest ih =>
    rw [List.map_cons, List.nodup_cons] at hnd
    unfold countKey
    rw [List.filter_cons]
    by_cases hk : (e.1 == p) = true
    · have hep : e.1 = p := beq_iff_eq.mp hk
      rw [if_pos hk]
      have hrest : rest.filter (fun e => e.1 == p) = [] := by
        rw [List.filter_eq_nil_iff]
        intro x hx hc
        exact hnd.1 (hep ▸ beq_iff_eq.mp hc ▸ List.mem_map.mpr ⟨x, hx, rfl⟩)
      rw [hrest]
      rfl
    · rw [if_neg hk]
      have hmem' : p ∈ rest.map Prod.fst := by
        rcases List.mem_cons.mp hmem with h | h
        · exact absurd (beq_iff_eq.mpr h.symm) hk
        · exact h
      exact ih hnd.2 hmem'

/-! ## Claim C10 — duplicate header paths: last block wins -/

/-- C10: when two or more scanned blocks normalize to the same path, the
splitter's mapping has exactly one entry for that path, and its value is
built from the last such occurrence in the content. -/
theorem C10_last_wins (c : Str) (p : Str)
    (h2 : 2 ≤ ((scanBlocks c).filter (fun m => normalizePath m.1 == p)).length) :
    countKey (splitByFiles c) p = 1 ∧
    lookupAssoc (splitByFiles c) p =
      (((scanBlocks c).filter (fun m => normalizePath m.1 == p)).getLast?).map
        (fun m => mkBlock (normalizePath m.1) m.2) := by
  have hne : (scanBlocks c).filter (fun m => normalizePath m.1 == p) ≠ [] := by
    intro hc
    rw [hc] at h2
    simp at h2
  constructor
  · have hmem : p ∈ (splitByFiles c).map Prod.fst := by
      rw [splitByFiles_eq_dfold, mem_keys_dfold]
      right
      cases hfe : (scanBlocks c).filter (fun m => normalizePath m.1 == p) with
      | nil => exact absurd hfe hne
      | cons a as =>
        have ha : a ∈ (scanBlocks c).filter (fun m => normalizePath m.1 == p) := by
          rw [hfe]; exact List.mem_cons_self a as
        rcases List.mem_filter.mp ha with ⟨ham, hap⟩
        exact ⟨a, ham, beq_iff_eq.mp hap⟩
    exact countKey_eq_one_of_nodup _ p (splitByFiles_keys_nodup c) hmem
  · rw [splitByFiles_eq_dfold, lookupAssoc_dfold]
    obtain ⟨m, hm⟩ : ∃ m,
        ((scanBlocks c).filter (fun m => normalizePath m.1 == p)).getLast? = some m :=
      ⟨_, List.getLast?_eq_getLast _ hne⟩
    have hmmem : m ∈ (scanBlocks c).filter (fun m => normalizePath m.1 == p) :=
      List.mem_of_mem_getLast? hm
    have hmp : normalizePath m.1 = p := beq_iff_eq.mp (List.mem_filter.mp hmmem).2
    rw [hm]
    simp [hmp]

/-- C10 witness: instantiation of `C10_last_wins` at a content with two
`a.py` blocks; the second body wins. -/
theorem C10_witness :
    (2 ≤ ((scanBlocks exDup).filter (fun m => normalizePath m.1 == "a.py".data)).length) ∧
    countKey (splitByFiles exDup) "a.py".data = 1 ∧
    lookupAssoc (splitByFiles exDup) "a.py".data =
      (((scanBlocks exDup).filter (fun m => normalizePath m.1 == "a.py".data)).getLast?).map
        (fun m => mkBlock (normalizePath m.1) m.2) :=
  ⟨by decide, C10_last_wins exDup "a.py".data (by decide)⟩

/-! ## Generic fold invariants -/

theorem foldl_inv {σ γ : Type} (Inv : σ → Prop) (f : σ → γ → σ)
    (l : List γ) (s0 : σ) (hf : ∀ s x, x ∈ l → Inv s → Inv (f s x))
    (h0 : Inv s0) : Inv (l.foldl f s0) := by
  induction l generalizing s0 with
  | nil => exact h0
  | cons x rest ih =>
    exact ih _ (fun s y hy => hf s y (List.mem_cons_of_mem x hy))
      (hf s0 x (List.mem_cons_self x rest) h0)

/-! ## Graph-builder lemmas and Claim C9 — symmetry -/

theorem find?_map_key_pres {β : Type} (g : List (Str × β)) (f : Str × β → Str × β)
    (hf : ∀ e, (f e).1 = e.1) (x : Str) :
    (g.map f).find? (fun e => e.1 == x) = (g.find? (fun e => e.1 == x)).map f := by
  induction g with
  | nil => rfl
  | cons e rest ih =>
    rw [List.map_cons]
    cases hk : (e.1 == x) with
    | true =>
      have hk' : ((f e).1 == x) = true := by rw [hf e]; exact hk
      simp only [List.find?_cons, hk, hk']
      rfl
    | false =>
      have hk' : ((f e).1 == x) = false := by rw [hf e]; exact hk
      simp only [List.find?_cons, hk, hk']
      exact ih

theorem graphNeighbors_addEdge_self (g : List (Str × List Str)) (a b : Str) :
    graphNeighbors (addEdge g a b) a =
      (if b ∈ graphNeighbors g a then graphNeighbors g a
       else graphNeighbors g a ++ [b]) := by
  unfold addEdge graphNeighbors lookupAssoc
  split
  · rename_i hany
    rw [find?_map_key_pres _ _ (fun e => by by_cases hk : (e.1 == a) = true <;> simp [hk])]
    rcases List.any_eq_true.mp hany with ⟨e0, he0, hk0⟩
    have hsome : (g.find? (fun e => e.1 == a)).isSome := by
      rw [List.find?_isSome]
      exact ⟨e0, he0, hk0⟩
    obtain ⟨e1, he1⟩ := Option.isSome_iff_exists.mp hsome
    have hk1 : (e1.1 == a) = true := by
      have h0 := List.find?_some he1
      simpa using h0
    rw [he1]
    simp [hk1]
    rw [if_pos (beq_iff_eq.mp hk1)]
  · rw [List.find?_append]
    rename_i hany
    have hnone : g.find? (fun e => e.1 == a) = none := by
      rw [List.find?_eq_none]
      intro e he hc
      exact hany (List.any_eq_true.mpr ⟨e, he, hc⟩)
    rw [hnone]
    simp [List.find?]

theorem graphNeighbors_addEdge_ne (g : List (Str × List Str)) (a b x : Str)
    (h : x ≠ a) :
    graphNeighbors (addEdge g a b) x = graphNeighbors g x := by
  unfold addEdge graphNeighbors lookupAssoc
  split
  · rw [find?_map_key_pres _ _ (fun e => by by_cases hk : (e.1 == a) = true <;> simp [hk])]
    cases hfind : g.find? (fun e => e.1 == x) with
    | none => rfl
    | some e1 =>
      have hk1 : e1.1 = x := beq_iff_eq.mp (by
        have h0 := List.find?_some hfind
        simpa using h0)
      have hne : (e1.1 == a) = false := beq_eq_false_iff_ne.mpr (hk1 ▸ h)
      simp [hne]
      rw [if_neg (beq_eq_false_iff_ne.mp hne)]
  · rw [List.find?_append]
    have hne : ((a : Str) == x) = false := beq_eq_false_iff_ne.mpr (Ne.symm h)
    cases hfind : g.find? (fun e => e.1 == x) with
    | some e => simp [hfind]
    | none => simp [hfind, List.find?, hne]

theorem mem_graphNeighbors_addEdge (g : List (Str × List Str)) (a b x y : Str) :
    x ∈ graphNeighbors (addEdge g a b) y ↔
      x ∈ graphNeighbors g y ∨ (y = a ∧ x = b) := by
  by_cases hy : y = a
  · subst hy
    rw [graphNeighbors_addEdge_self]
    split
    · rename_i hmem
      constructor
      · exact fun h => Or.inl h
      · rintro (h | ⟨_, rfl⟩)
        · exact h
        · exact hmem
    · simp
  · rw [graphNeighbors_addEdge_ne g a b y hy]
    constructor
    · exact fun h => Or.inl h
    · rintro (h | ⟨rfl, _⟩)
      · exact h
      · exact absurd rfl hy

theorem symmGraph_addSym (g : List (Str × List Str)) (a b : Str)
    (h : SymmGraph g) : SymmGraph (addSym g a b) := by
  intro u v hv
  unfold addSym at *
  rw [mem_graphNeighbors_addEdge] at hv
  rw [mem_graphNeighbors_addEdge]
  rcases hv with hv | ⟨rfl, rfl⟩
  · rw [mem_graphNeighbors_addEdge] at hv
    rcases hv with hv | ⟨rfl, rfl⟩
    · left
      rw [mem_graphNeighbors_addEdge]
      exact Or.inl (h u v hv)
    · right
      exact ⟨rfl, rfl⟩
  · left
    rw [mem_graphNeighbors_addEdge]
    exact Or.inr ⟨rfl, rfl⟩

theorem symmGraph_foldl {γ : Type} (f : List (Str × List Str) → γ → List (Str × List Str))
    (hf : ∀ g x, SymmGraph g → SymmGraph (f g x)) :
    ∀ (l : List γ) (g : List (Str × List Str)),
      SymmGraph g → SymmGraph (l.foldl f g) := by
  intro l
  induction l with
  | nil => exact fun g h => h
  | cons x rest ih => exact fun g h => ih _ (hf g x h)

theorem symmGraph_buildImportGraph (blocks : List (Str × Str)) :
    SymmGraph (buildImportGraph blocks) := by
  unfold buildImportGraph
  apply symmGraph_foldl
  · intro g pb hg
    dsimp only
    split
    · apply symmGraph_foldl
      · intro g' m hg'
        dsimp only
        split
        · exact symmGraph_addSym _ _ _ hg'
        · exact hg'
      · exact hg
    · split
      · apply symmGraph_foldl
        · intro g' imp hg'
          dsimp only
          split
          · split
            · exact symmGraph_addSym _ _ _ hg'
            · exact hg'
          · exact hg'
        · exact hg
      · exact hg
  · intro a b h
    simp [graphNeighbors, lookupAssoc] at h

/-- C9: the adjacency relation produced by `_build_import_graph` is
symmetric — whenever `b` is recorded among the neighbours of `a`, `a` is
recorded among the neighbours of `b`. -/
theorem C9_symmetric (blocks : List (Str × Str)) (a b : Str)
    (h : b ∈ graphNeighbors (buildImportGraph blocks) a) :
    a ∈ graphNeighbors (buildImportGraph blocks) b :=
  symmGraph_buildImportGraph blocks a b h

/-! ## The graph builder only mentions recognized paths -/

/-- C9 witness: instantiation of `C9_symmetric` on the three-file input
where `c.py` imports `a`; the reverse edge is present. -/
theorem C9_witness :
    ("a.py".data ∈ graphNeighbors (buildImportGraph (splitByFiles exTriple)) "c.py".data) ∧
    ("c.py".data ∈ graphNeighbors (buildImportGraph (splitByFiles exTriple)) "a.py".data) :=
  ⟨by decide, C9_symmetric (splitByFiles exTriple) "c.py".data "a.py".data (by decide)⟩

/-! ## Claim C6 — a single oversized file -/

theorem dfs_singleton (r : List Str → List Str) (g : List (Str × List Str))
    (hvr : ValidOrder r) (p : Str) (vis : List Str) (hp : p ∉ vis)
    (hsub : ∀ y ∈ graphNeighbors g p, y = p) (f : Nat) :
    dfsF r g (f + 1) [p] vis [] = ([p], vis ++ [p]) := by
  simp only [dfsF, List.getLast?_singleton, List.dropLast_single]
  rw [if_neg hp]
  have hpush : (r (graphNeighbors g p)).filter
      (fun n => !((vis ++ [p] : List Str).contains n)) = [] := by
    rw [List.filter_eq_nil_iff]
    intro n hn
    have hnp : n = p := hsub n ((hvr (graphNeighbors g p)).mem_iff.mp hn)
    simp [hnp]
  rw [hpush]
  cases f <;> simp [dfsF]

theorem mem_graphNeighbors_entry {g : List (Str × List Str)} {u x : Str}
    (hx : x ∈ graphNeighbors g u) : ∃ e ∈ g, x ∈ e.2 := by
  unfold graphNeighbors lookupAssoc at hx
  cases hfind : g.find? (fun e => e.1 == u) with
  | none =>
    rw [hfind] at hx
    exact absurd hx (List.not_mem_nil x)
  | some e1 =>
    rw [hfind] at hx
    exact ⟨e1, List.mem_of_find?_eq_some hfind, hx⟩

theorem dfsF_step_visited (r : List Str → List Str) (g : List (Str × List Str))
    (f : Nat) (stk vis cl : List Str) (node : Str)
    (hlast : stk.getLast? = some node) (hv : node ∈ vis) :
    dfsF r g (f + 1) stk vis cl = dfsF r g f stk.dropLast vis cl := by
  simp only [dfsF, hlast]
  rw [if_pos hv]

theorem dfsF_step_new (r : List Str → List Str) (g : List (Str × List Str))
    (f : Nat) (stk vis cl : List Str) (node : Str)
    (hlast : stk.getLast? = some node) (hv : node ∉ vis) :
    dfsF r g (f + 1) stk vis cl =
      dfsF r g f
        (stk.dropLast ++ (r (graphNeighbors g node)).filter
          (fun n => !((vis ++ [node]).contains n)))
        (vis ++ [node]) (cl ++ [node]) := by
  simp only [dfsF, hlast]
  rw [if_neg hv]

theorem dfs_delta (r : List Str → List Str) (g : List (Str × List Str))
    (hvr : ValidOrder r) :
    ∀ (fuel : Nat) (stk vis cl : List Str),
      ∃ δ : List Str,
        dfsF r g fuel stk vis cl = (cl ++ δ, vis ++ δ) ∧ δ.Nodup ∧
        (∀ x ∈ δ, x ∉ vis) ∧
        (∀ x ∈ δ, x ∈ stk ∨ ∃ u, x ∈ graphNeighbors g u) := by
  intro fuel
  induction fuel with
  | zero =>
    intro stk vis cl
    exact ⟨[], by simp [dfsF], List.nodup_nil, by simp, by simp⟩
  | succ f ih =>
    intro stk vis cl
    cases hlast : stk.getLast? with
    | none =>
      refine ⟨[], ?_, List.nodup_nil, by simp, by simp⟩
      simp [dfsF, hlast]
    | some node =>
      by_cases hv : node ∈ vis
      · obtain ⟨δ, heq, hnd, hnv, ho⟩ := ih stk.dropLast vis cl
        refine ⟨δ, ?_, hnd, hnv, ?_⟩
        · rw [dfsF_step_visited r g f stk vis cl node hlast hv]
          exact heq
        · intro x hx
          rcases ho x hx with h | h
          · exact Or.inl ((stk.dropLast_sublist).subset h)
          · exact Or.inr h
      · obtain ⟨δ₂, heq, hnd, hnv, ho⟩ :=
          ih (stk.dropLast ++ (r (graphNeighbors g node)).filter
              (fun n => !((vis ++ [node]).contains n)))
            (vis ++ [node]) (cl ++ [node])
        refine ⟨node :: δ₂, ?_, ?_, ?_, ?_⟩
        · rw [dfsF_step_new r g f stk vis cl node hlast hv, heq]
          simp
        · rw [List.nodup_cons]
          refine ⟨?_, hnd⟩
          intro hc
          exact hnv node hc (List.mem_append.mpr (Or.inr (List.mem_singleton.mpr rfl)))
        · intro x hx
          rcases List.mem_cons.mp hx with rfl | hx'
          · exact hv
          · exact fun hc =>
              hnv x hx' (List.mem_append.mpr (Or.inl hc))
        · intro x hx
          rcases List.mem_cons.mp hx with rfl | hx'
          · exact Or.inl (List.mem_of_mem_getLast? hlast)
          · rcases ho x hx' with h | h
            · rcases List.mem_append.mp h with h' | h'
              · exact Or.inl ((stk.dropLast_sublist).subset h')
              · refine Or.inr ⟨node, ?_⟩
                have hxr : x ∈ r (graphNeighbors g node) :=
                  (List.filter_sublist _).subset h'
                exact (hvr (graphNeighbors g node)).mem_iff.mp hxr
            · exact Or.inr h

theorem dfs_run (r : List Str → List Str) (g : List (Str × List Str))
    (hvr : ValidOrder r) (s : Str) (vis : List Str) (hs : s ∉ vis) (f : Nat) :
    ∃ δ : List Str,
      dfsF r g (f + 1) [s] vis [] = (δ, vis ++ δ) ∧ s ∈ δ ∧ δ.Nodup ∧
      (∀ x ∈ δ, x ∉ vis) ∧
      (∀ x ∈ δ, x = s ∨ ∃ u, x ∈ graphNeighbors g u) := by
  rw [dfsF_step_new r g f [s] vis [] s (List.getLast?_singleton s) hs]
  obtain ⟨δ₂, heq, hnd, hnv, ho⟩ := dfs_delta r g hvr f
    ([s].dropLast ++ (r (graphNeighbors g s)).filter
      (fun n => !((vis ++ [s]).contains n)))
    (vis ++ [s]) ([] ++ [s])
  refine ⟨s :: δ₂, ?_, List.mem_cons_self s δ₂, ?_, ?_, ?_⟩
  · rw [heq]
    simp
  · rw [List.nodup_cons]
    refine ⟨?_, hnd⟩
    intro hc
    exact hnv s hc (List.mem_append.mpr (Or.inr (List.mem_singleton.mpr rfl)))
  · intro x hx
    rcases List.mem_cons.mp hx with rfl | hx'
    · exact hs
    · exact fun hc => hnv x hx' (List.mem_append.mpr (Or.inl hc))
  · intro x hx
    rcases List.mem_cons.mp hx with rfl | hx'
    · exact Or.inl rfl
    · rcases ho x hx' with h | h
      · rcases List.mem_append.mp h with h' | h'
        · rw [List.dropLast_single] at h'
          exact absurd h' (List.not_mem_nil x)
        · refine Or.inr ⟨s, ?_⟩
          have hxr : x ∈ r (graphNeighbors g s) :=
            (List.filter_sublist _).subset h'
          exact (hvr (graphNeighbors g s)).mem_iff.mp hxr
      · exact Or.inr h

theorem clusters_inv (r : List Str → List Str) (g : List (Str × List Str))
    (hvr : ValidOrder r) (F : Nat) (hF : 1 ≤ F) :
    ∀ (rest done : List Str) (acc : List (List Str) × List Str),
      (done ++ rest).Nodup →
      acc.2 = acc.1.flatten →
      acc.2.Nodup →
      (∀ x ∈ acc.2, x ∈ done ∨ ∃ u, x ∈ graphNeighbors g u) →
      (∀ k ∈ done, k ∈ acc.2) →
      (∀ p, graphNeighbors g p = [] → (∀ e ∈ g, p ∉ e.2) → p ∈ done →
        [p] ∈ acc.1) →
      (rest.foldl (clusterStep r g F) acc).2 =
          (rest.foldl (clusterStep r g F) acc).1.flatten ∧
      (rest.foldl (clusterStep r g F) acc).2.Nodup ∧
      (∀ x ∈ (rest.foldl (clusterStep r g F) acc).2,
        x ∈ done ++ rest ∨ ∃ u, x ∈ graphNeighbors g u) ∧
      (∀ k ∈ done ++ rest, k ∈ (rest.foldl (clusterStep r g F) acc).2) ∧
      (∀ p, graphNeighbors g p = [] → (∀ e ∈ g, p ∉ e.2) → p ∈ done ++ rest →
        [p] ∈ (rest.foldl (clusterStep r g F) acc).1) := by
  intro rest
  induction rest with
  | nil =>
    intro done acc _ h1 h2 h3 h4 h5
    refine ⟨h1, h2, ?_, ?_, ?_⟩
    · intro x hx
      rw [List.append_nil]
      exact h3 x hx
    · intro k hk
      rw [List.append_nil] at hk
      exact h4 k hk
    · intro p hp1 hp2 hp3
      rw [List.append_nil] at hp3
      exact h5 p hp1 hp2 hp3
  | cons s rest' ih =>
    intro done acc hnd h1 h2 h3 h4 h5
    rw [List.foldl_cons]
    have hnd' : ((done ++ [s]) ++ rest').Nodup := by
      have : done ++ s :: rest' = (done ++ [s]) ++ rest' := by simp
      rw [← this]
      exact hnd
    obtain ⟨F', rfl⟩ : ∃ F', F = F' + 1 := ⟨F - 1, by omega⟩
    by_cases hs : s ∈ acc.2
    · have hstep : clusterStep r g (F' + 1) acc s = acc := by
        unfold clusterStep
        rw [if_pos hs]
      rw [hstep]
      have := ih (done ++ [s]) acc hnd' h1 h2
        (fun x hx => by
          rcases h3 x hx with h | h
          · exact Or.inl (List.mem_append.mpr (Or.inl h))
          · exact Or.inr h)
        (fun k hk => by
          rcases List.mem_append.mp hk with h | h
          · exact h4 k h
          · rw [List.mem_singleton.mp h]; exact hs)
        (fun p hp1 hp2 hp3 => by
          rcases List.mem_append.mp hp3 with h | h
          · exact h5 p hp1 hp2 h
          · -- p = s and s is isolated: s ∈ acc.2 must come from done
            rw [List.mem_singleton.mp h] at hp1 hp2 ⊢
            rcases h3 s hs with hdone | ⟨u, hu⟩
            · exact h5 s hp1 hp2 hdone
            · obtain ⟨e, he, hxe⟩ := mem_graphNeighbors_entry hu
              exact absurd hxe (hp2 e he))
      have hl : (done ++ [s]) ++ rest' = done ++ s :: rest' := by simp
      rw [hl] at this
      exact this
    · obtain ⟨δ, heq, hsδ, hndδ, hnv, ho⟩ := dfs_run r g hvr s acc.2 hs F'
      have hstep : clusterStep r g (F' + 1) acc s =
          (acc.1 ++ [δ], acc.2 ++ δ) := by
        unfold clusterStep
        rw [if_neg hs]
        dsimp only
        rw [heq]
        dsimp only
        rw [if_pos (by
          intro hc
          rw [hc] at hsδ
          exact List.not_mem_nil s hsδ)]
      rw [hstep]
      have h1' : (acc.2 ++ δ) = (acc.1 ++ [δ]).flatten := by
        rw [List.flatten_append, ← h1]
        simp
      have h2' : (acc.2 ++ δ).Nodup := by
        rw [List.nodup_append]
        exact ⟨h2, hndδ, fun x hx hxδ => hnv x hxδ hx⟩
      have h3' : ∀ x ∈ acc.2 ++ δ,
          x ∈ done ++ [s] ∨ ∃ u, x ∈ graphNeighbors g u := by
        intro x hx
        rcases List.mem_append.mp hx with h | h
        · rcases h3 x h with h' | h'
          · exact Or.inl (List.mem_append.mpr (Or.inl h'))
          · exact Or.inr h'
        · rcases ho x h with rfl | h'
          · exact Or.inl (List.mem_append.mpr (Or.inr (List.mem_singleton.mpr rfl)))
          · exact Or.inr h'
      have h4' : ∀ k ∈ done ++ [s], k ∈ acc.2 ++ δ := by
        intro k hk
        rcases List.mem_append.mp hk with h | h
        · exact List.mem_append.mpr (Or.inl (h4 k h))
        · rw [List.mem_singleton.mp h]
          exact List.mem_append.mpr (Or.inr hsδ)
      have h5' : ∀ p, graphNeighbors g p = [] → (∀ e ∈ g, p ∉ e.2) →
          p ∈ done ++ [s] → [p] ∈ acc.1 ++ [δ] := by
        intro p hp1 hp2 hp3
        rcases List.mem_append.mp hp3 with h | h
        · exact List.mem_append.mpr (Or.inl (h5 p hp1 hp2 h))
        · rw [List.mem_singleton.mp h] at hp1 hp2 ⊢
          have hsing := dfs_singleton r g hvr s acc.2 hs
            (fun y hy => by rw [hp1] at hy; exact absurd hy (List.not_mem_nil y)) F'
          have hδ : δ = [s] := by
            have := heq.symm.trans hsing
            exact (Prod.mk.injEq _ _ _ _ ▸ this).1
          rw [hδ]
          exact List.mem_append.mpr (Or.inr (List.mem_singleton.mpr rfl))
      have := ih (done ++ [s]) (acc.1 ++ [δ], acc.2 ++ δ) hnd' h1' h2' h3' h4' h5'
      have hl : (done ++ [s]) ++ rest' = done ++ s :: rest' := by simp
      rw [hl] at this
      exact this

/-- C7: for every file-block mapping with distinct paths and every
adjacency relation over its paths, the cluster finder returns a partition
of the path set — the concatenation of all clusters is a permutation of
the paths (every path in exactly one cluster, exactly once), the clusters
are pairwise disjoint, and a path with no relations at all forms the
singleton cluster `[p]`. -/
theorem C7_partition (r : List Str → List Str) (g : List (Str × List Str))
    (blocks : List (Str × Str)) (hvr : ValidOrder r)
    (hnd : (blocks.map Prod.fst).Nodup)
    (hover : GraphOver (blocks.map Prod.fst) g) :
    ((findClusters r g blocks).flatten).Perm (blocks.map Prod.fst) ∧
    List.Pairwise List.Disjoint (findClusters r g blocks) ∧
    (∀ p ∈ blocks.map Prod.fst, graphNeighbors g p = [] →
      (∀ e ∈ g, p ∉ e.2) → [p] ∈ findClusters r g blocks) := by
  have hmain := clusters_inv r g hvr
    ((g.map (fun e => e.2.length)).sum + (blocks.map Prod.fst).length + 2)
    (by omega)
    (blocks.map Prod.fst) [] ([], [])
    (by simpa using hnd) rfl List.nodup_nil
    (fun x hx => absurd hx (List.not_mem_nil x))
    (fun k hk => absurd hk (List.not_mem_nil k))
    (fun p _ _ hp => absurd hp (List.not_mem_nil p))
  rcases hmain with ⟨h1, h2, h3, h4, h5⟩
  have hfc : findClusters r g blocks =
      ((blocks.map Prod.fst).foldl
        (clusterStep r g
          ((g.map (fun e => e.2.length)).sum + (blocks.map Prod.fst).length + 2))
        ([], [])).1 := rfl
  have hflat :
      (findClusters r g blocks).flatten =
        ((blocks.map Prod.fst).foldl
          (clusterStep r g
            ((g.map (fun e => e.2.length)).sum + (blocks.map Prod.fst).length + 2))
          ([], [])).2 := by
    rw [hfc, ← h1]
  have hflatnd : (findClusters r g blocks).flatten.Nodup := by
    rw [hflat]; exact h2
  refine ⟨?_, ?_, ?_⟩
  · rw [List.perm_ext_iff_of_nodup hflatnd hnd]
    intro a
    constructor
    · intro ha
      rw [hflat] at ha
      rcases h3 a ha with h | ⟨u, hu⟩
      · simpa using h
      · obtain ⟨e, he, hae⟩ := mem_graphNeighbors_entry hu
        exact (hover e he).2 a hae
    · intro ha
      rw [hflat]
      exact h4 a (by simpa using ha)
  · exact (List.nodup_flatten.mp hflatnd).2
  · intro p hp hp1 hp2
    rw [hfc]
    exact h5 p hp1 hp2 (by simpa using hp)

/-- C7 witness: instantiation of `C7_partition` on a three-file set where
two files are related and one is isolated. -/
theorem C7_witness :
    ((∀ e ∈ [("a".data, ["b".data]), ("b".data, ["a".data])],
        e.1 ∈ ([("a".data, "x".data), ("b".data, "y".data),
          ("c".data, "z".data)].map Prod.fst) ∧
        ∀ x ∈ e.2, x ∈ ([("a".data, "x".data), ("b".data, "y".data),
          ("c".data, "z".data)].map Prod.fst)) ∧
     ([("a".data, "x".data), ("b".data, "y".data),
        ("c".data, "z".data)].map Prod.fst).Nodup) ∧
    (((findClusters (fun l => l) [("a".data, ["b".data]), ("b".data, ["a".data])]
        [("a".data, "x".data), ("b".data, "y".data), ("c".data, "z".data)]).flatten).Perm
      ([("a".data, "x".data), ("b".data, "y".data), ("c".data, "z".data)].map Prod.fst) ∧
     List.Pairwise List.Disjoint
      (findClusters (fun l => l) [("a".data, ["b".data]), ("b".data, ["a".data])]
        [("a".data, "x".data), ("b".data, "y".data), ("c".data, "z".data)]) ∧
     (∀ p ∈ [("a".data, "x".data), ("b".data, "y".data),
          ("c".data, "z".data)].map Prod.fst,
        graphNeighbors [("a".data, ["b".data]), ("b".data, ["a".data])] p = [] →
        (∀ e ∈ [("a".data, ["b".data]), ("b".data, ["a".data])], p ∉ e.2) →
        [p] ∈ findClusters (fun l => l) [("a".data, ["b".data]), ("b".data, ["a".data])]
          [("a".data, "x".data), ("b".data, "y".data), ("c".data, "z".data)])) :=
  ⟨⟨by decide, by decide⟩,
   C7_partition (fun l => l) [("a".data, ["b".data]), ("b".data, ["a".data])]
     [("a".data, "x".data), ("b".data, "y".data), ("c".data, "z".data)]
     (fun l => List.Perm.refl l) (by decide) (by unfold GraphOver; decide)⟩

/-! ## Claim C3 — soft budget respect for file/directory/semantic -/

theorem chunkByFile_budget (est : Str → Nat) (maxT : Nat) (content : Str) :
    ∀ cu ∈ chunkByFileI est maxT content,
      2 ≤ cu.2 → cu.1.token_count ≤ maxT := by
  unfold chunkByFileI
  have key :
      (fun (st : List (CodeChunk × Nat) × CodeChunk × Nat) =>
        (∀ cu ∈ st.1, 2 ≤ cu.2 → cu.1.token_count ≤ maxT) ∧
          (2 ≤ st.2.2 → st.2.1.token_count ≤ maxT))
        ((splitByFiles content).foldl (chunkByFileStep est maxT)
          ([], freshChunk 0, 0)) := by
    refine foldl_inv
      (fun (st : List (CodeChunk × Nat) × CodeChunk × Nat) =>
        (∀ cu ∈ st.1, 2 ≤ cu.2 → cu.1.token_count ≤ maxT) ∧
          (2 ≤ st.2.2 → st.2.1.token_count ≤ maxT)) _ _ _ ?_ ?_
    · intro st pb _ hst
      unfold chunkByFileStep
      dsimp only
      split
      · refine ⟨?_, ?_⟩
        · intro cu hcu
          split at hcu
          · rcases List.mem_append.mp hcu with h | h
            · exact hst.1 cu h
            · rw [List.mem_singleton.mp h]
              exact hst.2
          · exact hst.1 cu hcu
        · intro h2
          dsimp only at h2 ⊢
          omega
      · rename_i hfit
        refine ⟨hst.1, fun _ => ?_⟩
        dsimp only
        omega
    · exact ⟨fun cu hcu => absurd hcu (List.not_mem_nil cu),
        by intro h; dsimp only [freshChunk] at h; omega⟩
  intro cu hcu h2
  dsimp only at hcu
  split at hcu
  · rcases List.mem_append.mp hcu with h | h
    · exact key.1 cu h h2
    · rw [List.mem_singleton.mp h] at h2 ⊢
      exact key.2 h2
  · exact key.1 cu hcu h2

theorem dirFileStep_budget (est : Str → Nat) (maxT : Nat)
    (st : List (CodeChunk × Nat) × CodeChunk × Nat) (pb : Str × Str)
    (hst : (∀ cu ∈ st.1, 2 ≤ cu.2 → cu.1.token_count ≤ maxT) ∧
      (2 ≤ st.2.2 → st.2.1.token_count ≤ maxT)) :
    (∀ cu ∈ (dirFileStep est maxT st pb).1,
      2 ≤ cu.2 → cu.1.token_count ≤ maxT) ∧
    (2 ≤ (dirFileStep est maxT st pb).2.2 →
      (dirFileStep est maxT st pb).2.1.token_count ≤ maxT) := by
  unfold dirFileStep
  dsimp only
  split
  · refine ⟨?_, ?_⟩
    · intro cu hcu
      dsimp only at hcu
      split at hcu
      · rcases List.mem_append.mp hcu with h | h
        · exact hst.1 cu h
        · rw [List.mem_singleton.mp h]
          exact hst.2
      · exact hst.1 cu hcu
    · intro h2
      dsimp only [freshChunk] at h2 ⊢
      omega
  · rename_i hfit
    refine ⟨hst.1, fun _ => ?_⟩
    dsimp only
    omega

theorem chunkByDirectory_budget (est : Str → Nat) (maxT : Nat) (content : Str) :
    ∀ cu ∈ chunkByDirectoryI est maxT content,
      2 ≤ cu.2 → cu.1.token_count ≤ maxT := by
  unfold chunkByDirectoryI
  have key :
      (fun (st : List (CodeChunk × Nat) × CodeChunk × Nat) =>
        (∀ cu ∈ st.1, 2 ≤ cu.2 → cu.1.token_count ≤ maxT) ∧
          (2 ≤ st.2.2 → st.2.1.token_count ≤ maxT))
        ((sortDesc dirImportance
            (((splitByFiles content).foldl
              (fun d pb => groupInsert d (parentStr pb.1) pb) []).map Prod.fst)).foldl
          (chunkByDirStep est maxT
            ((splitByFiles content).foldl
              (fun d pb => groupInsert d (parentStr pb.1) pb) []))
          ([], freshChunk 0, 0)) := by
    refine foldl_inv
      (fun (st : List (CodeChunk × Nat) × CodeChunk × Nat) =>
        (∀ cu ∈ st.1, 2 ≤ cu.2 → cu.1.token_count ≤ maxT) ∧
          (2 ≤ st.2.2 → st.2.1.token_count ≤ maxT)) _ _ _ ?_ ?_
    · intro st dp _ hst
      unfold chunkByDirStep
      dsimp only
      split
      · exact foldl_inv
          (fun (st : List (CodeChunk × Nat) × CodeChunk × Nat) =>
            (∀ cu ∈ st.1, 2 ≤ cu.2 → cu.1.token_count ≤ maxT) ∧
              (2 ≤ st.2.2 → st.2.1.token_count ≤ maxT)) _ _ _
          (fun s pb _ hs => dirFileStep_budget est maxT s pb hs) hst
      · split
        · refine ⟨?_, ?_⟩
          · intro cu hcu
            split at hcu
            · rcases List.mem_append.mp hcu with h | h
              · exact hst.1 cu h
              · rw [List.mem_singleton.mp h]
                exact hst.2
            · exact hst.1 cu hcu
          · intro h2
            dsimp only at h2 ⊢
            omega
        · rename_i hbig hfit
          refine ⟨hst.1, fun _ => ?_⟩
          dsimp only
          omega
    · exact ⟨fun cu hcu => absurd hcu (List.not_mem_nil cu),
        by intro h; dsimp only [freshChunk] at h; omega⟩
  intro cu hcu h2
  dsimp only at hcu
  split at hcu
  · rcases List.mem_append.mp hcu with h | h
    · exact key.1 cu h h2
    · rw [List.mem_singleton.mp h] at h2 ⊢
      exact key.2 h2
  · exact key.1 cu hcu h2

theorem chunkSemantic_budget (est : Str → Nat) (r : List Str → List Str)
    (maxT : Nat) (content : Str) :
    ∀ cu ∈ chunkSemanticI est r maxT content,
      2 ≤ cu.2 → cu.1.token_count ≤ maxT := by
  unfold chunkSemanticI
  have key :
      (fun (st : List (CodeChunk × Nat) × CodeChunk × Nat) =>
        (∀ cu ∈ st.1, 2 ≤ cu.2 → cu.1.token_count ≤ maxT) ∧
          (2 ≤ st.2.2 → st.2.1.token_count ≤ maxT))
        ((findClusters r (buildImportGraph (splitByFiles content))
            (splitByFiles content)).foldl
          (chunkSemanticStep est maxT (splitByFiles content))
          ([], freshChunk 0, 0)) := by
    refine foldl_inv
      (fun (st : List (CodeChunk × Nat) × CodeChunk × Nat) =>
        (∀ cu ∈ st.1, 2 ≤ cu.2 → cu.1.token_count ≤ maxT) ∧
          (2 ≤ st.2.2 → st.2.1.token_count ≤ maxT)) _ _ _ ?_ ?_
    · intro st cluster _ hst
      unfold chunkSemanticStep
      dsimp only
      split
      · refine ⟨?_, ?_⟩
        · intro cu hcu
          dsimp only at hcu
          split at hcu
          · rcases List.mem_append.mp hcu with h | h
            · exact hst.1 cu h
            · rw [List.mem_singleton.mp h]
              exact hst.2
          · exact hst.1 cu hcu
        · intro h2
          dsimp only [freshChunk] at h2 ⊢
          omega
      · rename_i hfit
        refine ⟨hst.1, fun _ => ?_⟩
        dsimp only
        omega
    · exact ⟨fun cu hcu => absurd hcu (List.not_mem_nil cu),
        by intro h; dsimp only [freshChunk] at h; omega⟩
  intro cu hcu h2
  dsimp only at hcu
  split at hcu
  · rcases List.mem_append.mp hcu with h | h
    · exact key.1 cu h h2
    · rw [List.mem_singleton.mp h] at h2 ⊢
      exact key.2 h2
  · exact key.1 cu hcu h2

/-- C3: for the file, directory and semantic strategies, every sealed
chunk holding more than one unit (a file, a directory group or fallback
file, or a cluster; counted by the ghost unit counter of the
`I`-instrumented packers, whose first projections are the real
strategies) has `token_count ≤ max_tokens`; only a single-unit chunk may
exceed the budget. -/
theorem C3_budget (est : Str → Nat) (r : List Str → List Str)
    (maxT : Nat) (content : Str) :
    (∀ i : Nat,
      2 ≤ ((chunkByFileI est maxT content).getD i (freshChunk 0, 0)).2 →
      ((chunkByFileI est maxT content).getD i (freshChunk 0, 0)).1.token_count ≤ maxT) ∧
    (∀ i : Nat,
      2 ≤ ((chunkByDirectoryI est maxT content).getD i (freshChunk 0, 0)).2 →
      ((chunkByDirectoryI est maxT content).getD i (freshChunk 0, 0)).1.token_count ≤ maxT) ∧
    (∀ i : Nat,
      2 ≤ ((chunkSemanticI est r maxT content).getD i (freshChunk 0, 0)).2 →
      ((chunkSemanticI est r maxT content).getD i (freshChunk 0, 0)).1.token_count ≤ maxT) := by
  have hgen : ∀ (L : List (CodeChunk × Nat)),
      (∀ cu ∈ L, 2 ≤ cu.2 → cu.1.token_count ≤ maxT) →
      ∀ i : Nat, 2 ≤ (L.getD i (freshChunk 0, 0)).2 →
        (L.getD i (freshChunk 0, 0)).1.token_count ≤ maxT := by
    intro L hL i h2
    by_cases hi : i < L.length
    · refine hL _ ?_ h2
      rw [List.getD_eq_getElem L _ hi]
      exact List.getElem_mem hi
    · rw [List.getD_eq_default L _ (by omega)] at h2
      simp at h2
  exact ⟨hgen _ (chunkByFile_budget est maxT content),
    hgen _ (chunkByDirectory_budget est maxT content),
    hgen _ (chunkSemantic_budget est r maxT content)⟩

/-- C3 witness: instantiation of `C3_budget` at a two-file input with a
generous budget: the file strategy's first chunk holds two units and
respects the budget. -/
theorem C3_witness :
    (2 ≤ ((chunkByFileI estFallback 200 exTwo).getD 0 (freshChunk 0, 0)).2) ∧
    ((chunkByFileI estFallback 200 exTwo).getD 0 (freshChunk 0, 0)).1.token_count ≤ 200 :=
  ⟨by decide,
   (C3_budget estFallback (fun l => l) 200 exTwo).1 0 (by decide)⟩

/-! ## Claim C1 — coverage: chunk files vs. recognized paths -/

/-- C4 (counterexample): the semantic strategy's result depends on the
iteration order of the hash-based neighbour sets: on a three-file input
where `c.py` imports both `a` and `b`, iterating the neighbour sets in
reversed order produces a different `ChunkResult` (the files are
concatenated in a different order inside the chunk) than the identity
order, even though all other inputs are identical. -/
theorem C4_counterexample :
    chunk estFallback (fun l => l.reverse) 500 0 exTriple [] .semantic ≠
      chunk estFallback (fun l => l) 500 0 exTriple [] .semantic := by
  decide

/-- C4 (amended): the file and directory strategies are deterministic
unconditionally — their results do not depend on the set-iteration-order
parameter at all; the semantic and hybrid strategies are deterministic
once the set-iteration order is fixed (as within a single interpreter
process), but their chunk contents can differ under different
set-iteration orders. -/
theorem C4_amended (est : Str → Nat) (r₁ r₂ : List Str → List Str)
    (maxT ov : Nat) (content : Str) (metas : List FileMeta) :
    chunk est r₁ maxT ov content metas .file =
      chunk est r₂ maxT ov content metas .file ∧
    chunk est r₁ maxT ov content metas .directory =
      chunk est r₂ maxT ov content metas .directory :=
  ⟨rfl, rfl⟩

/-! ## Claim C5 — empty input -/

/-- C5: when the delimiter pattern finds no match in the combined content
(in particular when the content is empty), the splitter returns an empty
mapping, and `chunk` returns a result with no chunks, zero totals, for
every strategy. -/
theorem C5_empty_input (est : Str → Nat) (r : List Str → List Str)
    (maxT ov : Nat) (metas : List FileMeta) (c : Str)
    (h : scanBlocks c = []) (s : ChunkStrategy) :
    splitByFiles c = [] ∧
    (chunk est r maxT ov c metas s).chunks = [] ∧
    (chunk est r maxT ov c metas s).total_chunks = 0 ∧
    (chunk est r maxT ov c metas s).total_tokens = 0 := by
  have hb : splitByFiles c = [] := by
    rw [splitByFiles_eq_dfold, h]
    rfl
  refine ⟨hb, ?_⟩
  cases s <;>
    simp [chunk, tokenDist, chunkByFile, chunkByFileI, chunkByDirectory,
      chunkByDirectoryI, chunkSemantic, chunkSemanticI, chunkHybrid,
      chunkHybridPack, findClusters, buildImportGraph, sortDesc, hb, freshChunk]

/-! ## Claim C2 — hybrid overlap injection -/

theorem hybridPack_overlap_zero (est : Str → Nat) (r : List Str → List Str)
    (maxT : Nat) (content : Str) (metas : List FileMeta) :
    ∀ c ∈ chunkHybridPack est r maxT content metas,
      c.overlap_with_previous = 0 := by
  unfold chunkHybridPack
  have key :
      (fun (st : List CodeChunk × CodeChunk × List Str) =>
        (∀ c ∈ st.1, c.overlap_with_previous = 0) ∧
          st.2.1.overlap_with_previous = 0)
        ((sortDesc (fun x => x.2.1)
            ((splitByFiles content).map
              (fun pb => (pb.1, fileImportance pb.1 metas, pb.2)))).foldl
          (chunkHybridStep est r maxT metas (splitByFiles content)
            (buildImportGraph (splitByFiles content)))
          ([], freshChunk 0, [])) := by
    refine foldl_inv
      (fun (st : List CodeChunk × CodeChunk × List Str) =>
        (∀ c ∈ st.1, c.overlap_with_previous = 0) ∧
          st.2.1.overlap_with_previous = 0) _ _ _ ?_ ?_
    · intro st x _ hst
      unfold chunkHybridStep
      dsimp only
      split
      · exact hst
      · constructor
        · intro c hc
          dsimp only at hc
          split at hc
          · dsimp only at hc
            split at hc
            · rcases List.mem_append.mp hc with hc | hc
              · exact hst.1 c hc
              · rw [List.mem_singleton.mp hc]
                unfold sealWithImportance
                exact hst.2
            · exact hst.1 c hc
          · dsimp only at hc
            exact hst.1 c hc
        · dsimp only
          split
          · rfl
          · exact hst.2
    · exact ⟨fun c hc => absurd hc (List.not_mem_nil c), rfl⟩
  dsimp only
  intro c hc
  split at hc
  · rcases List.mem_append.mp hc with hc | hc
    · exact key.1 c hc
    · rw [List.mem_singleton.mp hc]
      unfold sealWithImportance
      exact key.2
  · exact key.1 c hc

theorem addOverlapGo_length (ov : Nat) (prev : CodeChunk) (l : List CodeChunk) :
    (addOverlapGo ov prev l).length = l.length := by
  induction l generalizing prev with
  | nil => rfl
  | cons c rest ih => simp [addOverlapGo, ih]

theorem addOverlap_length (ov : Nat) (l : List CodeChunk) :
    (addOverlap ov l).length = l.length := by
  cases l with
  | nil => rfl
  | cons c rest => simp [addOverlap, addOverlapGo_length]

theorem addOverlapGo_getD (ov : Nat) (d : CodeChunk) :
    ∀ (l : List CodeChunk) (prev : CodeChunk) (i : Nat), i < l.length →
      (addOverlapGo ov prev l).getD i d =
        overlayChunk ov
          (if i = 0 then prev else (addOverlapGo ov prev l).getD (i - 1) d)
          (l.getD i d) := by
  intro l
  induction l with
  | nil => intro prev i hi; simp at hi
  | cons c rest ih =>
    intro prev i hi
    cases i with
    | zero => simp [addOverlapGo]
    | succ j =>
      have hj : j < rest.length := by simpa using hi
      rw [show addOverlapGo ov prev (c :: rest) =
          overlayChunk ov prev c ::
            addOverlapGo ov (overlayChunk ov prev c) rest from rfl]
      rw [List.getD_cons_succ, ih (overlayChunk ov prev c) j hj]
      congr 1
      cases j with
      | zero => simp [List.getD_cons_zero]
      | succ k => simp [List.getD_cons_succ]

/-- C2 (counterexample): hybrid packing of two small files with a small
budget and `overlap_tokens = 500` yields two chunks, and the second
chunk's `overlap_with_previous` is `0`, not the configured `500` — the
overlap pass skips a chunk whose predecessor's content is at most
`4 * overlap_tokens` characters long. -/
theorem C2_counterexample :
    (0 < 500) ∧
    (chunk estFallback (fun l => l) 10 500 exTwo [] .hybrid).chunks.length = 2 ∧
    (chunk estFallback (fun l => l) 10 500 exTwo [] .hybrid).chunks.map
      CodeChunk.overlap_with_previous = [0, 0] := by
  decide

/-- C2 (amended): for the hybrid strategy with `overlap_tokens > 0` and
more than one packed chunk: no packed chunk carries overlap, the first
chunk is returned unchanged, and each later chunk equals
`overlayChunk ov prev packed` where `prev` is the already-updated previous
chunk — i.e. it receives `overlap_with_previous = ov`, `token_count`
increased by exactly `ov` and the previous chunk's trailing `4 * ov`
characters prepended under the demarcation header exactly when the
previous chunk's content is strictly longer than `4 * ov` characters, and
is returned unchanged otherwise. -/
theorem C2_amended (est : Str → Nat) (r : List Str → List Str)
    (maxT ov : Nat) (content : Str) (metas : List FileMeta)
    (hov : 0 < ov)
    (hlen : 1 < (chunkHybridPack est r maxT content metas).length) :
    (chunkHybrid est r maxT ov content metas).length =
      (chunkHybridPack est r maxT content metas).length ∧
    (∀ c ∈ chunkHybridPack est r maxT content metas,
      c.overlap_with_previous = 0) ∧
    (chunkHybrid est r maxT ov content metas).getD 0 (freshChunk 0) =
      (chunkHybridPack est r maxT content metas).getD 0 (freshChunk 0) ∧
    ∀ i : Nat, i + 1 < (chunkHybrid est r maxT ov content metas).length →
      (chunkHybrid est r maxT ov content metas).getD (i + 1) (freshChunk 0) =
        overlayChunk ov
          ((chunkHybrid est r maxT ov content metas).getD i (freshChunk 0))
          ((chunkHybridPack est r maxT content metas).getD (i + 1) (freshChunk 0)) := by
  have hL : chunkHybrid est r maxT ov content metas =
      addOverlap ov (chunkHybridPack est r maxT content metas) := by
    unfold chunkHybrid
    rw [if_pos ⟨hov, hlen⟩]
  cases hP : chunkHybridPack est r maxT content metas with
  | nil => rw [hP] at hlen; simp at hlen
  | cons c0 rest =>
    have hLc : chunkHybrid est r maxT ov content metas =
        c0 :: addOverlapGo ov c0 rest := by
      rw [hL, hP]; rfl
    refine ⟨?_, ?_, ?_, ?_⟩
    · rw [hL, hP, addOverlap_length]
    · intro c hc
      exact hybridPack_overlap_zero est r maxT content metas c (hP ▸ hc)
    · rw [hLc]; rfl
    · intro i hi
      rw [hLc] at hi ⊢
      have hi' : i < rest.length := by
        simpa [addOverlapGo_length] using hi
      rw [List.getD_cons_succ, addOverlapGo_getD ov (freshChunk 0) rest c0 i hi']
      congr 1
      cases i with
      | zero => simp [List.getD_cons_zero]
      | succ k => simp [List.getD_cons_succ]

/-- C2 witness: instantiation of `C2_amended` at a two-chunk hybrid run
with `overlap_tokens = 20`, where the previous chunk is long enough and
overlap is injected. -/
theorem C2_witness :
    (0 < 20 ∧ 1 < (chunkHybridPack estFallback (fun l => l) 10 exTwo []).length) ∧
    ((chunkHybrid estFallback (fun l => l) 10 20 exTwo []).length =
      (chunkHybridPack estFallback (fun l => l) 10 exTwo []).length ∧
     (∀ c ∈ chunkHybridPack estFallback (fun l => l) 10 exTwo [],
       c.overlap_with_previous = 0) ∧
     (chunkHybrid estFallback (fun l => l) 10 20 exTwo []).getD 0 (freshChunk 0) =
       (chunkHybridPack estFallback (fun l => l) 10 exTwo []).getD 0 (freshChunk 0) ∧
     ∀ i : Nat, i + 1 < (chunkHybrid estFallback (fun l => l) 10 20 exTwo []).length →
       (chunkHybrid estFallback (fun l => l) 10 20 exTwo []).getD (i + 1) (freshChunk 0) =
         overlayChunk 20
           ((chunkHybrid estFallback (fun l => l) 10 20 exTwo []).getD i (freshChunk 0))
           ((chunkHybridPack estFallback (fun l => l) 10 exTwo []).getD (i + 1) (freshChunk 0))) :=
  ⟨⟨by decide, by decide⟩,
   C2_amended estFallback (fun l => l) 10 20 exTwo [] (by decide) (by decide)⟩

/-- C5 witness: instantiation of `C5_empty_input` on delimiter-free
content. -/
theorem C5_witness :
    scanBlocks "hello".data = [] ∧
    (splitByFiles "hello".data = [] ∧
     (chunk estFallback (fun l => l) 100 500 "hello".data [] .hybrid).chunks = [] ∧
     (chunk estFallback (fun l => l) 100 500 "hello".data [] .hybrid).total_chunks = 0 ∧
     (chunk estFallback (fun l => l) 100 500 "hello".data [] .hybrid).total_tokens = 0) :=
  ⟨by decide,
   C5_empty_input estFallback (fun l => l) 100 500 [] "hello".data (by decide) .hybrid⟩

end DocRock
